import Mathlib

set_option maxRecDepth 40000

/-!
Shallow embedding of `hashring.go` (package `hashring`), a consistent-hashing
ring, together with theorems settling the specification claims.

Modelling conventions:
* Go `[]byte` values are `List Nat` with entries taken modulo 256 where they
  are decoded (the `% 256` in `hashVal` records the byte type of the slice
  elements).
* The pluggable digest (`hashProvider` composed with `Write`/`Sum`) is a
  function `String → List Nat`, passed explicitly to every operation; the Go
  struct stores it unchanged, and every mutator copies it to the new ring, so
  parameterising is equivalent.  The default md5 provider is just one such
  function and is not modelled specially.
* Go maps are association lists with distinct keys: `mapInsert` overwrites in
  place, `mapGet` looks up, so `List.length` agrees with Go's `len` on a map.
  Map *iteration* order is unspecified in Go; the one place the source
  iterates a map whose order is observable is `NewWithWeights`, which is
  therefore modelled as taking one enumeration (an association list) of the
  weight map.
* A Go runtime panic (slice index out of range) is modelled as `none`; all
  functions that touch digest bytes are `Option`-valued.
* `sort.Search` is embedded by its documented contract: for the monotone
  predicate used here it returns the least index satisfying the predicate,
  or the length if none does, which is `List.findIdx`.
* `sort.Sort` on `HashKeyOrder` (ordering by `<` on `uint32`) produces the
  non-decreasing permutation of the keys; since duplicate keys are equal
  values this permutation is unique as a list, so any correct sort computes
  it and we use `List.insertionSort (· ≤ ·)`.
* `math.Floor(float64(a) / float64(b))` on the integers produced here is
  floor division, `Int.fdiv` (exact for all magnitudes below 2^53; the Go
  values `40*len(nodes)*weight` and `totalWeight` are far below that for any
  realistic input).  The conversion `int(factor)` used as a loop bound makes
  a negative factor run the loop zero times, which `Int.toNat` captures.
-/

namespace Hashring

/-- A digest function: the byte output of `hashProvider` applied to a string. -/
abbrev Digest := String → List Nat

/-- Go slice expression `b[lo:hi]`: `none` models the out-of-range panic. -/
def slice (b : List Nat) (lo hi : Nat) : Option (List Nat) :=
  if lo ≤ hi ∧ hi ≤ b.length then some ((b.drop lo).take (hi - lo)) else none

/-- Source `hashVal`: little-endian 32-bit decode of a 4-byte chunk,
`(bKey[3]<<24) | (bKey[2]<<16) | (bKey[1]<<8) | bKey[0]`. -/
def hashVal (b : List Nat) : Nat :=
  ((b.getD 3 0 % 256) <<< 24) ||| ((b.getD 2 0 % 256) <<< 16) |||
    ((b.getD 1 0 % 256) <<< 8) ||| (b.getD 0 0 % 256)

/-- Go map write `m[k] = v`: overwrite in place, else append. -/
def mapInsert {α β : Type} [BEq α] (m : List (α × β)) (k : α) (v : β) :
    List (α × β) :=
  if m.any (fun p => p.1 == k) then
    m.map (fun p => if p.1 == k then (k, v) else p)
  else m ++ [(k, v)]

/-- Go map read `v, ok := m[k]`. -/
def mapGet {α β : Type} [BEq α] (m : List (α × β)) (k : α) : Option β :=
  (m.find? (fun p => p.1 == k)).map (fun p => p.2)

/-- Go map read `m[k]` returning the zero value on a miss. -/
def mapGetD {α β : Type} [BEq α] (m : List (α × β)) (k : α) (d : β) : β :=
  (mapGet m k).getD d

/-- Source `HashRing` struct (the digest function is passed separately). -/
structure HashRing where
  ring : List (Nat × String)
  sortedKeys : List Nat
  nodes : List String
  weights : List (String × Int)
deriving DecidableEq

/-- Weight of a node: the `weights` entry if present, else 1
(source `generateCircle`, both loops). -/
def lookupWeight (weights : List (String × Int)) (node : String) : Int :=
  match mapGet weights node with
  | some w => w
  | none => 1

/-- Source `totalWeight` accumulation in `generateCircle`. -/
def totalWeightOf (weights : List (String × Int)) (nodes : List String) : Int :=
  (nodes.map (lookupWeight weights)).sum

/-- Source `factor := math.Floor(float64(40*len(h.nodes)*weight) / float64(totalWeight))`. -/
def factorOf (nodes : List String) (weights : List (String × Int))
    (node : String) : Int :=
  Int.fdiv (40 * (nodes.length : Int) * lookupWeight weights node)
    (totalWeightOf weights nodes)

/-- Source `nodeKey := fmt.Sprintf("%s-%d", node, j)`. -/
def groupName (node : String) (j : Nat) : String := node ++ "-" ++ toString j

/-- The three hash keys produced from one point group: the inner
`for i := 0; i < 3` loop reading `bKey[i*4 : i*4+4]` of
`bKey := h.hashDigest(nodeKey)`. -/
def groupKeys (d : Digest) (node : String) (j : Nat) : Option (List Nat) :=
  match slice (d (groupName node j)) 0 4, slice (d (groupName node j)) 4 8,
      slice (d (groupName node j)) 8 12 with
  | some c0, some c1, some c2 => some [hashVal c0, hashVal c1, hashVal c2]
  | _, _, _ => none

/-- Sequence a list of fallible computations, failing on the first failure
(the Go loop stops at the panic). -/
def seqMap {α β : Type} (f : α → Option β) : List α → Option (List β)
  | [] => some []
  | a :: l =>
    match f a, seqMap f l with
    | some b, some bs => some (b :: bs)
    | _, _ => none

/-- All hash keys one occurrence of `node` contributes, in generation order:
the `for j := 0; j < int(factor)` loop of `generateCircle`. -/
def nodeKeysList (d : Digest) (nodes : List String)
    (weights : List (String × Int)) (node : String) : Option (List Nat) :=
  (seqMap (groupKeys d node) (List.range (factorOf nodes weights node).toNat)).map
    List.flatten

/-- All `(key, node)` writes of `generateCircle`, in execution order. -/
def circleEntries (d : Digest) (nodes : List String)
    (weights : List (String × Int)) : Option (List (Nat × String)) :=
  (seqMap (fun node =>
      (nodeKeysList d nodes weights node).map
        (fun ks => ks.map (fun k => (k, node)))) nodes).map
    List.flatten

/-- Source `generateCircle`: perform every `h.ring[key] = node` write and
every `sortedKeys` append, then sort the keys ascending
(`sort.Sort(HashKeyOrder(h.sortedKeys))`). -/
def generateCircle (d : Digest) (nodes : List String)
    (weights : List (String × Int)) : Option (List (Nat × String) × List Nat) :=
  (circleEntries d nodes weights).map (fun entries =>
    (entries.foldl (fun m p => mapInsert m p.1 p.2) [],
     List.insertionSort (· ≤ ·) (entries.map (fun p => p.1))))

/-- Source `New`: all nodes implicitly weight 1 (`weights` starts empty). -/
def New (d : Digest) (nodes : List String) : Option HashRing :=
  (generateCircle d nodes []).map (fun rc => ⟨rc.1, rc.2, nodes, []⟩)

/-- Source `NewWithWeights`.  The Go code builds `nodes` by ranging over the
weight map, whose iteration order is unspecified; the argument here is one
enumeration of that map, so distinct enumerations of equal maps model
distinct runs. -/
def NewWithWeights (d : Digest) (weights : List (String × Int)) :
    Option HashRing :=
  (generateCircle d (weights.map (fun p => p.1)) weights).map
    (fun rc => ⟨rc.1, rc.2, weights.map (fun p => p.1), weights⟩)

/-- Source `GenKey`: decode `bKey[0:4]` of the key's digest. -/
def GenKey (d : Digest) (key : String) : Option Nat :=
  (slice (d key) 0 4).map hashVal

/-- Source `GetNodePos`.  `sort.Search(len(nodes), func(i) {nodes[i] > key})`
returns the least index whose entry exceeds `key`, or the length if none
does, which is `findIdx`. -/
def GetNodePos (d : Digest) (h : HashRing) (stringKey : String) :
    Option (Nat × Bool) :=
  if h.ring.length = 0 then some (0, false)
  else
    (GenKey d stringKey).map (fun key =>
      let pos := h.sortedKeys.findIdx (fun x => decide (key < x))
      if pos = h.sortedKeys.length then (0, true) else (pos, true))

/-- Source `GetNode`: `h.ring[h.sortedKeys[pos]]` (the index is
bounds-checked, a panic being `none`; the map read yields `""` on a miss). -/
def GetNode (d : Digest) (h : HashRing) (stringKey : String) :
    Option (String × Bool) :=
  (GetNodePos d h stringKey).bind (fun pr =>
    if pr.2 then
      (h.sortedKeys[pr.1]?).map (fun key => (mapGetD h.ring key "", true))
    else some ("", false))

/-- The walk loop of `GetNodes`: `visited` is the key set of
`returnedValues`, `result` is `resultSlice`.  Each iteration reads
`val := h.ring[key]`, records `val` in both accumulators when unseen, and
breaks as soon as `len(returnedValues) == size`; the single check after the
mutation step is transcribed into both branches of the seen/unseen test. -/
def getNodesLoop (ring : List (Nat × String)) (size : Int) :
    List Nat → List String → List String → List String
  | [], _, result => result
  | key :: rest, visited, result =>
    if visited.contains (mapGetD ring key "") then
      if (visited.length : Int) = size then result
      else getNodesLoop ring size rest visited result
    else
      if ((visited ++ [mapGetD ring key ""]).length : Int) = size then
        result ++ [mapGetD ring key ""]
      else getNodesLoop ring size rest (visited ++ [mapGetD ring key ""])
        (result ++ [mapGetD ring key ""])

/-- Source `GetNodes`: locate the key, refuse when `size > len(h.nodes)`,
walk `sortedKeys[pos:] ++ sortedKeys[:pos]` collecting first-seen nodes, and
report `len(resultSlice) == size`. -/
def GetNodes (d : Digest) (h : HashRing) (stringKey : String) (size : Int) :
    Option (List String × Bool) :=
  (GetNodePos d h stringKey).map (fun pr =>
    if !pr.2 then ([], false)
    else if size > (h.nodes.length : Int) then ([], false)
    else
      let merged := h.sortedKeys.drop pr.1 ++ h.sortedKeys.take pr.1
      let res := getNodesLoop h.ring size merged [] []
      (res, decide ((res.length : Int) = size)))

/-- Source `AddWeightedNode`: no-op when `weight <= 0` or the node is
already present, otherwise rebuild from the extended copies. -/
def AddWeightedNode (d : Digest) (h : HashRing) (node : String)
    (weight : Int) : Option HashRing :=
  if weight ≤ 0 then some h
  else if h.nodes.contains node then some h
  else
    (generateCircle d (h.nodes ++ [node]) (mapInsert h.weights node weight)).map
      (fun rc => ⟨rc.1, rc.2, h.nodes ++ [node], mapInsert h.weights node weight⟩)

/-- Source `AddNode`: `AddWeightedNode(node, 1)`. -/
def AddNode (d : Digest) (h : HashRing) (node : String) : Option HashRing :=
  AddWeightedNode d h node 1

/-- Source `RemoveNode`: rebuild from copies with `node` filtered out. -/
def RemoveNode (d : Digest) (h : HashRing) (node : String) : Option HashRing :=
  (generateCircle d (h.nodes.filter (fun e => !(e == node)))
      (h.weights.filter (fun p => !(p.1 == node)))).map
    (fun rc => ⟨rc.1, rc.2, h.nodes.filter (fun e => !(e == node)),
      h.weights.filter (fun p => !(p.1 == node))⟩)

/-- Heap model for the frame claim: a store of allocated rings, a ring
reference being an index.  `AddWeightedNode` on a reference either returns
the same reference (the source's `return h` no-op paths) or allocates the
freshly built ring (`&HashRing{...}`) and returns its reference.  The store
entries are exactly the writes the source performs: none to existing rings. -/
def storeAddWeightedNode (d : Digest) (rs : List HashRing) (i : Nat)
    (node : String) (weight : Int) : Option (List HashRing × Nat) :=
  match rs[i]? with
  | none => none
  | some h =>
    if weight ≤ 0 then some (rs, i)
    else if h.nodes.contains node then some (rs, i)
    else (AddWeightedNode d h node weight).map
      (fun h' => (rs ++ [h'], rs.length))

/-- Heap model of `RemoveNode`: always allocates the rebuilt ring. -/
def storeRemoveNode (d : Digest) (rs : List HashRing) (i : Nat)
    (node : String) : Option (List HashRing × Nat) :=
  match rs[i]? with
  | none => none
  | some h => (RemoveNode d h node).map (fun h' => (rs ++ [h'], rs.length))

/-- Distinct values of a list in first-encounter order. -/
def firstSeen (l : List String) : List String :=
  l.foldl (fun acc v => if acc.contains v then acc else acc ++ [v]) []

/-- Position returned by the locator: either the first entry of `sk`
strictly greater than `kv`, or the wrap-around position 0 when no entry is
strictly greater. -/
def posSpec (sk : List Nat) (kv pos : Nat) : Prop :=
  (pos < sk.length ∧ kv < sk.getD pos 0 ∧ ∀ j, j < pos → sk.getD j 0 ≤ kv) ∨
  (pos = 0 ∧ ∀ k ∈ sk, k ≤ kv)

/-- The two build invariants of §3: sorted ascending keys, and every key
backed by a `ring` entry. -/
def RingInvariant (h : HashRing) : Prop :=
  List.Sorted (· ≤ ·) h.sortedKeys ∧
    ∀ k ∈ h.sortedKeys, (mapGet h.ring k).isSome = true

/-- Concrete digest for evaluation: a constant 16-byte output, as md5-sized
digests have; its three decoded chunks are the keys 1, 2, 3. -/
def d16ex : Digest := fun _ => [1,0,0,0, 2,0,0,0, 3,0,0,0, 4,0,0,0]

/-- Concrete digest violating the 12-byte contract (8 bytes). -/
def dShortEx : Digest := fun _ => [1,0,0,0, 2,0,0,0]

/-- Concrete 4-byte digest for locator tests: every key hashes to 15. -/
def d4ex : Digest := fun _ => [15,0,0,0]

/-- The ring `New d16ex ["A"]` builds. -/
def hAEx : HashRing :=
  ⟨[(1, "A"), (2, "A"), (3, "A")],
   List.replicate 40 1 ++ List.replicate 40 2 ++ List.replicate 40 3,
   ["A"], []⟩

/-- The ring `New d []` builds: everything empty. -/
def emptyRingEx : HashRing := ⟨[], [], [], []⟩

/-- A small two-node ring used to instantiate the reader theorems. -/
def hEx2 : HashRing := ⟨[(10, "A"), (20, "B")], [10, 20], ["A", "B"], []⟩

/-! ### Helper lemmas -/

lemma slice_eq_some {b : List Nat} {lo hi : Nat} (h1 : lo ≤ hi)
    (h2 : hi ≤ b.length) :
    slice b lo hi = some ((b.drop lo).take (hi - lo)) := by
  unfold slice
  rw [if_pos ⟨h1, h2⟩]

lemma slice_eq_none {b : List Nat} {lo hi : Nat} (h2 : b.length < hi) :
    slice b lo hi = none := by
  unfold slice
  rw [if_neg (by omega)]

lemma seqMap_some_lengths {α β : Type} (f : α → Option (List β)) (g : α → Nat) :
    ∀ l : List α, (∀ a ∈ l, ∃ b, f a = some b ∧ b.length = g a) →
      ∃ bs, seqMap f l = some bs ∧ bs.length = l.length ∧
        bs.flatten.length = (l.map g).sum
  | [], _ => ⟨[], rfl, rfl, rfl⟩
  | a :: l, hall => by
    obtain ⟨b, hb, hbl⟩ := hall a (List.mem_cons_self a l)
    obtain ⟨bs, hbs, hlen, hfl⟩ := seqMap_some_lengths f g l
      (fun x hx => hall x (List.mem_cons_of_mem a hx))
    refine ⟨b :: bs, ?_, ?_, ?_⟩
    · simp [seqMap, hb, hbs]
    · simp [hlen]
    · simp only [List.flatten_cons, List.length_append, List.map_cons,
        List.sum_cons, hfl, hbl]

lemma seqMap_isSome {α β : Type} (f : α → Option β) :
    ∀ l : List α, (∀ a ∈ l, (f a).isSome = true) →
      (seqMap f l).isSome = true
  | [], _ => rfl
  | a :: l, hall => by
    obtain ⟨b, hb⟩ := Option.isSome_iff_exists.mp (hall a (List.mem_cons_self a l))
    obtain ⟨bs, hbs⟩ := Option.isSome_iff_exists.mp
      (seqMap_isSome f l (fun x hx => hall x (List.mem_cons_of_mem a hx)))
    simp [seqMap, hb, hbs]

lemma seqMap_eq_none {α β : Type} (f : α → Option β) {a : α} :
    ∀ l : List α, a ∈ l → f a = none → seqMap f l = none
  | b :: l, hmem, hfa => by
    rcases List.mem_cons.mp hmem with rfl | hmem'
    · cases hs : seqMap f l <;> simp [seqMap, hfa, hs]
    · have htail := seqMap_eq_none f l hmem' hfa
      cases hf : f b <;> simp [seqMap, hf, htail]

lemma groupKeys_length (d : Digest) (node : String) (j : Nat)
    (h12 : 12 ≤ (d (groupName node j)).length) :
    ∃ ks, groupKeys d node j = some ks ∧ ks.length = 3 := by
  unfold groupKeys
  rw [slice_eq_some (by omega) (by omega), slice_eq_some (by omega) (by omega),
    slice_eq_some (by omega) (by omega)]
  exact ⟨_, rfl, rfl⟩

lemma groupKeys_eq_none (d : Digest) (node : String) (j : Nat)
    (h12 : (d (groupName node j)).length < 12) :
    groupKeys d node j = none := by
  unfold groupKeys
  rw [slice_eq_none h12]
  cases slice (d (groupName node j)) 0 4 <;>
    cases slice (d (groupName node j)) 4 8 <;> rfl

lemma nodeKeysList_length (d : Digest) (nodes : List String)
    (weights : List (String × Int)) (node : String)
    (hd : ∀ s, 12 ≤ (d s).length) :
    ∃ ks, nodeKeysList d nodes weights node = some ks ∧
      ks.length = 3 * (factorOf nodes weights node).toNat := by
  obtain ⟨bs, hbs, hblen, hfl⟩ := seqMap_some_lengths (groupKeys d node)
    (fun _ => 3) (List.range (factorOf nodes weights node).toNat)
    (fun j _ => groupKeys_length d node j (hd _))
  refine ⟨bs.flatten, ?_, ?_⟩
  · unfold nodeKeysList
    rw [hbs]
    rfl
  · rw [hfl, List.map_const', List.sum_replicate, smul_eq_mul,
      List.length_range, Nat.mul_comm]

lemma circleEntries_length (d : Digest) (nodes : List String)
    (weights : List (String × Int)) (hd : ∀ s, 12 ≤ (d s).length) :
    ∃ entries, circleEntries d nodes weights = some entries ∧
      entries.length =
        (nodes.map (fun nd => 3 * (factorOf nodes weights nd).toNat)).sum := by
  obtain ⟨ess, hess, _, hfl⟩ := seqMap_some_lengths
    (fun node => (nodeKeysList d nodes weights node).map
      (fun ks => ks.map (fun k => (k, node))))
    (fun nd => 3 * (factorOf nodes weights nd).toNat) nodes
    (fun nd _ => by
      obtain ⟨ks, hks, hlen⟩ := nodeKeysList_length d nodes weights nd hd
      exact ⟨ks.map (fun k => (k, nd)), by simp [hks], by simp [hlen]⟩)
  refine ⟨ess.flatten, ?_, hfl⟩
  unfold circleEntries
  rw [hess]
  rfl

lemma mapGet_isSome_iff {α β : Type} [BEq α] [LawfulBEq α]
    (m : List (α × β)) (k : α) :
    (mapGet m k).isSome = true ↔ k ∈ m.map (fun p => p.1) := by
  induction m with
  | nil => simp [mapGet]
  | cons p m ih =>
    by_cases hp : p.1 == k
    · have hpk : p.1 = k := by simpa using hp
      unfold mapGet
      rw [List.find?_cons_of_pos]
      · simp [hpk]
      · exact hp
    · have hpk : ¬ p.1 = k := by simpa using hp
      unfold mapGet
      rw [List.find?_cons_of_neg]
      · unfold mapGet at ih
        rw [List.map_cons, List.mem_cons]
        constructor
        · intro hsome
          exact Or.inr (ih.mp hsome)
        · rintro (heq | hmem)
          · exact absurd heq.symm hpk
          · exact ih.mpr hmem
      · exact hp

lemma mem_keys_mapInsert {α β : Type} [BEq α] [LawfulBEq α]
    (m : List (α × β)) (k : α) (v : β) (k' : α) :
    k' ∈ (mapInsert m k v).map (fun p => p.1) ↔
      k' = k ∨ k' ∈ m.map (fun p => p.1) := by
  unfold mapInsert
  by_cases hc : m.any (fun p => p.1 == k)
  · rw [if_pos hc]
    obtain ⟨q, hqm, hqk⟩ := List.any_eq_true.mp hc
    have hq : q.1 = k := by simpa using hqk
    have hkeys : (m.map (fun p => if p.1 == k then (k, v) else p)).map
        (fun p => p.1) = m.map (fun p => p.1) := by
      rw [List.map_map]
      apply List.map_congr_left
      intro p _
      by_cases hpk : p.1 == k
      · have hpe : p.1 = k := by simpa using hpk
        simp [hpk, hpe]
      · simp [hpk]
    rw [hkeys]
    constructor
    · exact fun hmem => Or.inr hmem
    · rintro (rfl | hmem)
      · exact List.mem_map.mpr ⟨q, hqm, hq⟩
      · exact hmem
  · rw [if_neg hc]
    simp [eq_comm, or_comm]

lemma mem_keys_foldl_mapInsert {α β : Type} [BEq α] [LawfulBEq α] :
    ∀ (entries : List (α × β)) (acc : List (α × β)) (k : α),
      (k ∈ entries.map (fun p => p.1) ∨ k ∈ acc.map (fun p => p.1)) →
      k ∈ (entries.foldl (fun m p => mapInsert m p.1 p.2) acc).map
        (fun p => p.1)
  | [], acc, k, hmem => by
    rcases hmem with hmem | hmem
    · simp at hmem
    · simpa using hmem
  | e :: entries, acc, k, hmem => by
    rw [List.foldl_cons]
    apply mem_keys_foldl_mapInsert entries (mapInsert acc e.1 e.2) k
    rcases hmem with hmem | hmem
    · rw [List.map_cons] at hmem
      rcases List.mem_cons.mp hmem with heq | hmem'
      · right
        exact (mem_keys_mapInsert acc e.1 e.2 k).mpr (Or.inl heq)
      · left
        exact hmem'
    · right
      exact (mem_keys_mapInsert acc e.1 e.2 k).mpr (Or.inr hmem)

lemma lookupWeight_pos (weights : List (String × Int)) (node : String)
    (hw : ∀ p ∈ weights, 0 < p.2) : 0 < lookupWeight weights node := by
  unfold lookupWeight
  cases hf : mapGet weights node with
  | none => decide
  | some w =>
    obtain ⟨p, hp, hpk⟩ := Option.map_eq_some'.mp hf
    have h2 := hw p (List.mem_of_find?_eq_some hp)
    have hpk' : p.2 = w := hpk
    show 0 < w
    omega

lemma totalWeightOf_pos (weights : List (String × Int)) (nodes : List String)
    (hw : ∀ p ∈ weights, 0 < p.2) (hn : nodes ≠ []) :
    0 < totalWeightOf weights nodes := by
  apply List.sum_pos
  · intro x hx
    obtain ⟨nd, _, rfl⟩ := List.mem_map.mp hx
    exact lookupWeight_pos weights nd hw
  · simpa using hn

lemma factorOf_nonneg (nodes : List String) (weights : List (String × Int))
    (node : String) (hw : ∀ p ∈ weights, 0 < p.2) :
    0 ≤ factorOf nodes weights node := by
  apply Int.fdiv_nonneg
  · have h1 : (0:Int) ≤ 40 * (nodes.length : Int) := by positivity
    have h2 := lookupWeight_pos weights node hw
    exact mul_nonneg h1 (le_of_lt h2)
  · rcases eq_or_ne nodes [] with rfl | hn
    · simp [totalWeightOf]
    · exact le_of_lt (totalWeightOf_pos weights nodes hw hn)

lemma findIdx_spec {α : Type} (p : α → Bool) (d : α) :
    ∀ l : List α,
      (l.findIdx p < l.length ∧ p (l.getD (l.findIdx p) d) = true ∧
        ∀ j, j < l.findIdx p → p (l.getD j d) = false) ∨
      (l.findIdx p = l.length ∧ ∀ j, j < l.length → p (l.getD j d) = false)
  | [] => Or.inr ⟨rfl, fun j hj => absurd hj (Nat.not_lt_zero j)⟩
  | a :: l => by
    by_cases hpa : p a = true
    · left
      rw [List.findIdx_cons, hpa]
      exact ⟨Nat.succ_pos _, by simpa using hpa,
        fun j hj => absurd hj (Nat.not_lt_zero j)⟩
    · have hpa' : p a = false := by simpa using hpa
      rw [List.findIdx_cons, hpa']
      simp only [cond_false]
      rcases findIdx_spec p d l with ⟨h1, h2, h3⟩ | ⟨h1, h2⟩
      · left
        refine ⟨by simpa using h1, by simpa using h2, ?_⟩
        intro j hj
        match j with
        | 0 => simpa using hpa'
        | j + 1 =>
          rw [List.getD_cons_succ]
          exact h3 j (by omega)
      · right
        refine ⟨by simpa using h1, ?_⟩
        intro j hj
        match j with
        | 0 => simpa using hpa'
        | j + 1 =>
          rw [List.getD_cons_succ]
          exact h2 j (by simpa using hj)

lemma drop_append_take (l : List Nat) (pos : Nat) (hpos : pos < l.length) :
    l.drop pos ++ l.take pos =
      l.getD pos 0 :: (l.drop (pos + 1) ++ l.take pos) := by
  rw [List.drop_eq_getElem_cons hpos, List.getD_eq_getElem l 0 hpos]
  rfl

lemma generateCircle_eq_some (d : Digest) (nodes : List String)
    (weights : List (String × Int)) (entries : List (Nat × String))
    (he : circleEntries d nodes weights = some entries) :
    generateCircle d nodes weights =
      some (entries.foldl (fun m p => mapInsert m p.1 p.2) [],
        List.insertionSort (· ≤ ·) (entries.map (fun p => p.1))) := by
  unfold generateCircle
  rw [he]
  rfl

lemma generateCircle_invariant (d : Digest) (nodes : List String)
    (weights : List (String × Int)) (rc : List (Nat × String) × List Nat)
    (hgc : generateCircle d nodes weights = some rc) :
    List.Sorted (· ≤ ·) rc.2 ∧ ∀ k ∈ rc.2, (mapGet rc.1 k).isSome = true := by
  unfold generateCircle at hgc
  obtain ⟨entries, _, hrc⟩ := Option.map_eq_some'.mp hgc
  subst hrc
  constructor
  · exact List.sorted_insertionSort _ _
  · intro k hk
    rw [List.mem_insertionSort] at hk
    rw [mapGet_isSome_iff]
    exact mem_keys_foldl_mapInsert entries [] k (Or.inl hk)

lemma getNodesLoop_cons (ring : List (Nat × String)) (size : Int) (key : Nat)
    (rest : List Nat) (visited result : List String) :
    getNodesLoop ring size (key :: rest) visited result =
      if visited.contains (mapGetD ring key "") then
        if (visited.length : Int) = size then result
        else getNodesLoop ring size rest visited result
      else
        if ((visited ++ [mapGetD ring key ""]).length : Int) = size then
          result ++ [mapGetD ring key ""]
        else getNodesLoop ring size rest (visited ++ [mapGetD ring key ""])
          (result ++ [mapGetD ring key ""]) := rfl

lemma getNodesLoop_extend (ring : List (Nat × String)) (size : Int) :
    ∀ (l : List Nat) (visited result : List String),
      ∃ t, getNodesLoop ring size l visited result = result ++ t
  | [], _, result => ⟨[], by simp [getNodesLoop]⟩
  | key :: rest, visited, result => by
    rw [getNodesLoop_cons]
    by_cases hc : visited.contains (mapGetD ring key "") = true
    · rw [if_pos hc]
      by_cases hb : ((visited.length : Int) = size)
      · exact ⟨[], by rw [if_pos hb, List.append_nil]⟩
      · obtain ⟨t, ht⟩ := getNodesLoop_extend ring size rest visited result
        exact ⟨t, by rw [if_neg hb, ht]⟩
    · rw [if_neg hc]
      by_cases hb : (((visited ++ [mapGetD ring key ""]).length : Int) = size)
      · exact ⟨[mapGetD ring key ""], by rw [if_pos hb]⟩
      · obtain ⟨t, ht⟩ := getNodesLoop_extend ring size rest
          (visited ++ [mapGetD ring key ""]) (result ++ [mapGetD ring key ""])
        exact ⟨[mapGetD ring key ""] ++ t,
          by rw [if_neg hb, ht, List.append_assoc]⟩

lemma getNodesLoop_cons_ne_nil (ring : List (Nat × String)) (size : Int)
    (key : Nat) (rest : List Nat) :
    getNodesLoop ring size (key :: rest) [] [] ≠ [] := by
  rw [getNodesLoop_cons]
  have hc : ¬ ((([] : List String).contains (mapGetD ring key "")) = true) := by
    simp
  rw [if_neg hc]
  by_cases hb : (((([] : List String) ++ [mapGetD ring key ""]).length : Int) = size)
  · rw [if_pos hb]
    simp
  · rw [if_neg hb]
    obtain ⟨t, ht⟩ := getNodesLoop_extend ring size rest
      ([] ++ [mapGetD ring key ""]) ([] ++ [mapGetD ring key ""])
    rw [ht]
    simp

lemma getNodesLoop_one (ring : List (Nat × String)) (key : Nat)
    (rest : List Nat) :
    getNodesLoop ring 1 (key :: rest) [] [] = [mapGetD ring key ""] := by
  rw [getNodesLoop_cons]
  have hc : ¬ ((([] : List String).contains (mapGetD ring key "")) = true) := by
    simp
  rw [if_neg hc, if_pos (by simp)]
  simp

lemma getNodesLoop_nonpos (ring : List (Nat × String)) (size : Int)
    (hs : size ≤ 0) :
    ∀ (l : List Nat) (acc : List String),
      getNodesLoop ring size l acc acc =
        l.foldl (fun a kk =>
          if a.contains (mapGetD ring kk "") then a
          else a ++ [mapGetD ring kk ""]) acc
  | [], acc => by simp [getNodesLoop]
  | key :: rest, acc => by
    rw [List.foldl_cons, getNodesLoop_cons]
    by_cases hc : acc.contains (mapGetD ring key "") = true
    · have hne : acc ≠ [] := by
        intro hnil
        rw [hnil] at hc
        simp at hc
      have hlen : 1 ≤ acc.length := by
        cases acc with
        | nil => exact absurd rfl hne
        | cons a l => simp
      have hb : ¬ ((acc.length : Int) = size) := by omega
      rw [if_pos hc, if_neg hb, if_pos hc]
      exact getNodesLoop_nonpos ring size hs rest acc
    · have hb : ¬ (((acc ++ [mapGetD ring key ""]).length : Int) = size) := by
        rw [List.length_append, List.length_singleton]
        push_cast
        omega
      rw [if_neg hc, if_neg hb, if_neg hc]
      exact getNodesLoop_nonpos ring size hs rest (acc ++ [mapGetD ring key ""])

lemma foldlSeen_extend :
    ∀ (l : List String) (acc : List String),
      ∃ t, l.foldl (fun a v => if a.contains v then a else a ++ [v]) acc =
        acc ++ t
  | [], acc => ⟨[], by simp⟩
  | v :: l, acc => by
    rw [List.foldl_cons]
    by_cases hc : acc.contains v
    · obtain ⟨t, ht⟩ := foldlSeen_extend l acc
      exact ⟨t, by rw [if_pos hc, ht]⟩
    · obtain ⟨t, ht⟩ := foldlSeen_extend l (acc ++ [v])
      exact ⟨[v] ++ t, by rw [if_neg hc, ht, List.append_assoc]⟩

lemma firstSeen_cons_ne_nil (v : String) (l : List String) :
    firstSeen (v :: l) ≠ [] := by
  unfold firstSeen
  rw [List.foldl_cons]
  have hc : ¬ (List.contains [] v = true) := by simp
  rw [if_neg hc]
  obtain ⟨t, ht⟩ := foldlSeen_extend l ([] ++ [v])
  rw [ht]
  simp

lemma genKey_eq (d : Digest) (k : String) (hd : 4 ≤ (d k).length) :
    GenKey d k = some (hashVal ((d k).take 4)) := by
  unfold GenKey
  rw [slice_eq_some (by omega) hd]
  rfl

lemma getNodePos_nonempty (d : Digest) (h : HashRing) (k : String) (kv : Nat)
    (hr : ¬ h.ring.length = 0) (hgen : GenKey d k = some kv) :
    GetNodePos d h k =
      some (if h.sortedKeys.findIdx (fun x => decide (kv < x)) =
          h.sortedKeys.length then (0, true)
        else (h.sortedKeys.findIdx (fun x => decide (kv < x)), true)) := by
  unfold GetNodePos
  rw [if_neg hr, hgen]
  rfl

lemma getNodePos_exists (d : Digest) (h : HashRing) (k : String) (kv : Nat)
    (hr : ¬ h.ring.length = 0) (hgen : GenKey d k = some kv) :
    ∃ pos, GetNodePos d h k = some (pos, true) ∧
      (h.sortedKeys ≠ [] → pos < h.sortedKeys.length) := by
  have hposeq := getNodePos_nonempty d h k kv hr hgen
  by_cases hc : h.sortedKeys.findIdx (fun x => decide (kv < x)) =
      h.sortedKeys.length
  · refine ⟨0, ?_, fun hsk => List.length_pos.mpr hsk⟩
    rw [hposeq, if_pos hc]
  · refine ⟨h.sortedKeys.findIdx (fun x => decide (kv < x)), ?_, fun _ => ?_⟩
    · rw [hposeq, if_neg hc]
    · have := @List.findIdx_le_length Nat (fun x => decide (kv < x))
        h.sortedKeys
      omega

lemma getNodes_step (d : Digest) (h : HashRing) (k : String) (pos : Nat)
    (size : Int) (hpos : GetNodePos d h k = some (pos, true))
    (hsize : ¬ (size > (h.nodes.length : Int))) :
    GetNodes d h k size = some
      (getNodesLoop h.ring size
        (h.sortedKeys.drop pos ++ h.sortedKeys.take pos) [] [],
       decide (((getNodesLoop h.ring size
         (h.sortedKeys.drop pos ++ h.sortedKeys.take pos) [] []).length : Int) =
           size)) := by
  unfold GetNodes
  rw [hpos, Option.map_some']
  show some (if size > (h.nodes.length : Int) then (([] : List String), false)
      else _) = _
  rw [if_neg hsize]

lemma getNodes_notFound (d : Digest) (h : HashRing) (k : String) (size : Int)
    (hpos : GetNodePos d h k = some (0, false)) :
    GetNodes d h k size = some ([], false) := by
  unfold GetNodes
  rw [hpos, Option.map_some']
  rfl

lemma d16ex_length (s : String) : 12 ≤ (d16ex s).length := by
  unfold d16ex
  decide

lemma dShortEx_length (s : String) : (dShortEx s).length < 12 := by
  unfold dShortEx
  decide

lemma d4ex_length (s : String) : 4 ≤ (d4ex s).length := by
  unfold d4ex
  decide

/-! ### Claim theorems -/

/-- Claim C6: `AddWeightedNode` returns the very same ring whenever
`weight <= 0` or the node is already present in `nodes`, and `AddNode`
behaves exactly as `AddWeightedNode` with weight 1. -/
theorem c6_addWeighted_noop (d : Digest) (h : HashRing) (node : String)
    (w : Int) :
    ((w ≤ 0 ∨ h.nodes.contains node = true) →
      AddWeightedNode d h node w = some h) ∧
    AddNode d h node = AddWeightedNode d h node 1 := by
  constructor
  · intro hcase
    unfold AddWeightedNode
    by_cases hw : w ≤ 0
    · rw [if_pos hw]
    · rw [if_neg hw]
      rcases hcase with hw' | hcont
      · exact absurd hw' hw
      · rw [if_pos hcont]
  · rfl

/-- Claim C6 witness at a concrete ring: weight 0 is a no-op and `AddNode`
delegates to weight 1. -/
theorem c6_addWeighted_noop_witness :
    AddWeightedNode d16ex hEx2 "A" 0 = some hEx2 ∧
    AddNode d16ex hEx2 "A" = AddWeightedNode d16ex hEx2 "A" 1 :=
  ⟨(c6_addWeighted_noop d16ex hEx2 "A" 0).1 (Or.inl (by decide)),
   (c6_addWeighted_noop d16ex hEx2 "A" 0).2⟩

/-- Claim C7 (amended): in the heap model, `AddWeightedNode` and
`RemoveNode` never write to any existing ring — every reference held before
the call still dereferences to the identical structure — and the returned
ring is either the untouched original (the no-op add paths) or a freshly
allocated rebuilt ring; `RemoveNode` always allocates freshly. -/
theorem c7_mutators_frame (d : Digest) (rs : List HashRing) (i : Nat)
    (node : String) (w : Int) :
    (∀ s' i', storeAddWeightedNode d rs i node w = some (s', i') →
      (∀ j, j < rs.length → s'[j]? = rs[j]?) ∧
      ((s' = rs ∧ i' = i) ∨ ∃ h', s' = rs ++ [h'] ∧ i' = rs.length)) ∧
    (∀ s' i', storeRemoveNode d rs i node = some (s', i') →
      (∀ j, j < rs.length → s'[j]? = rs[j]?) ∧
      ∃ h', s' = rs ++ [h'] ∧ i' = rs.length) := by
  have happend : ∀ (h' : HashRing) (j : Nat), j < rs.length →
      (rs ++ [h'])[j]? = rs[j]? := by
    intro h' j hj
    rw [List.getElem?_append, if_pos hj]
  constructor
  · intro s' i' hst
    unfold storeAddWeightedNode at hst
    cases hri : rs[i]? with
    | none =>
      rw [hri] at hst
      cases hst
    | some h =>
      rw [hri] at hst
      replace hst : (if w ≤ 0 then some (rs, i)
          else if h.nodes.contains node = true then some (rs, i)
          else Option.map (fun h' => (rs ++ [h'], rs.length))
            (AddWeightedNode d h node w)) = some (s', i') := hst
      by_cases hw : w ≤ 0
      · rw [if_pos hw] at hst
        have hpair : (rs, i) = (s', i') := by
          injection hst
        obtain ⟨h1, h2⟩ := Prod.mk.injEq .. ▸ hpair
        exact ⟨fun j _ => by rw [← h1], Or.inl ⟨h1.symm, h2.symm⟩⟩
      · rw [if_neg hw] at hst
        by_cases hcont : h.nodes.contains node = true
        · rw [if_pos hcont] at hst
          have hpair : (rs, i) = (s', i') := by
            injection hst
          obtain ⟨h1, h2⟩ := Prod.mk.injEq .. ▸ hpair
          exact ⟨fun j _ => by rw [← h1], Or.inl ⟨h1.symm, h2.symm⟩⟩
        · rw [if_neg hcont] at hst
          obtain ⟨h', _, hpair⟩ := Option.map_eq_some'.mp hst
          obtain ⟨h1, h2⟩ := Prod.mk.injEq .. ▸ hpair
          refine ⟨fun j hj => by rw [← h1]; exact happend h' j hj,
            Or.inr ⟨h', h1.symm, h2.symm⟩⟩
  · intro s' i' hst
    unfold storeRemoveNode at hst
    cases hri : rs[i]? with
    | none =>
      rw [hri] at hst
      cases hst
    | some h =>
      rw [hri] at hst
      replace hst : Option.map (fun h' => (rs ++ [h'], rs.length))
          (RemoveNode d h node) = some (s', i') := hst
      obtain ⟨h', _, hpair⟩ := Option.map_eq_some'.mp hst
      obtain ⟨h1, h2⟩ := Prod.mk.injEq .. ▸ hpair
      refine ⟨fun j hj => by rw [← h1]; exact happend h' j hj,
        ⟨h', h1.symm, h2.symm⟩⟩

/-- Claim C7 counterexample to the unqualified "the result is a freshly
built Ring": adding with weight 0 returns the original reference and
allocates nothing (a fresh build would extend the store and return the new
index 1, here the untouched store and index 0 come back). -/
theorem c7_counterexample :
    storeAddWeightedNode d16ex [emptyRingEx] 0 "Z" 0 =
      some ([emptyRingEx], 0) := by
  decide

/-- Claim C7 witness: removing the only node of a concrete one-ring store
leaves the original ring observable unchanged at its old reference. -/
theorem c7_mutators_frame_witness :
    (storeRemoveNode d16ex [hAEx] 0 "A").map (fun p => p.1[0]?) =
      some (some hAEx) := by
  have heq : storeRemoveNode d16ex [hAEx] 0 "A" =
      some ([hAEx, emptyRingEx], 1) := by decide
  have hf := ((c7_mutators_frame d16ex [hAEx] 0 "A" 0).2
    [hAEx, emptyRingEx] 1 heq).1 0 (by decide)
  rw [heq]
  show some ([hAEx, emptyRingEx][0]?) = some (some hAEx)
  rw [hf]
  rfl

/-- Claim C8: with a digest of at least 12 bytes every chunk access
`bKey[i*4 : i*4+4]` is in bounds and construction succeeds for all inputs;
with a shorter digest, construction fails (returns `none`, the modelled
panic) as soon as any point group is generated, rather than building a
ring. -/
theorem c8_digest_bounds (d : Digest) :
    ((∀ s, 12 ≤ (d s).length) →
      (∀ node j, (slice (d (groupName node j)) 0 4).isSome = true ∧
        (slice (d (groupName node j)) 4 8).isSome = true ∧
        (slice (d (groupName node j)) 8 12).isSome = true) ∧
      (∀ nodes weights, (generateCircle d nodes weights).isSome = true)) ∧
    ((∀ s, (d s).length < 12) →
      ∀ nodes weights node, node ∈ nodes →
        0 < (factorOf nodes weights node).toNat →
        generateCircle d nodes weights = none) := by
  constructor
  · intro hd
    constructor
    · intro node j
      refine ⟨?_, ?_, ?_⟩
      · rw [slice_eq_some (by omega) (le_trans (by omega) (hd _))]
        rfl
      · rw [slice_eq_some (by omega) (le_trans (by omega) (hd _))]
        rfl
      · rw [slice_eq_some (by omega) (hd _)]
        rfl
    · intro nodes weights
      obtain ⟨entries, he, _⟩ := circleEntries_length d nodes weights hd
      rw [generateCircle_eq_some d nodes weights entries he]
      rfl
  · intro hd nodes weights node hmem hfac
    have hgk : groupKeys d node 0 = none := groupKeys_eq_none d node 0 (hd _)
    have hnkl : nodeKeysList d nodes weights node = none := by
      unfold nodeKeysList
      rw [seqMap_eq_none (groupKeys d node) _ (List.mem_range.mpr hfac) hgk]
      rfl
    have hfnode : (nodeKeysList d nodes weights node).map
        (fun ks => ks.map (fun k => (k, node))) = none := by
      rw [hnkl]
      rfl
    have hce : circleEntries d nodes weights = none := by
      unfold circleEntries
      rw [seqMap_eq_none (fun nd => (nodeKeysList d nodes weights nd).map
        (fun ks => ks.map (fun k => (k, nd)))) nodes hmem hfnode]
      rfl
    unfold generateCircle
    rw [hce]
    rfl

/-- Claim C8 witness: a 16-byte digest builds a one-node ring, an 8-byte
digest makes the same construction fail. -/
theorem c8_digest_bounds_witness :
    (generateCircle d16ex ["A"] []).isSome = true ∧
    generateCircle dShortEx ["A"] [] = none :=
  ⟨((c8_digest_bounds d16ex).1 d16ex_length).2 ["A"] [],
   (c8_digest_bounds dShortEx).2 dShortEx_length ["A"] [] "A"
     (by decide) (by decide)⟩

/-- Claim C4: with positive weights, each node in the build list generates
exactly `floor(40 * |nodes| * weight / totalWeight) * 3` keys, and
`sortedKeys` contains exactly the sum of these contributions. -/
theorem c4_virtual_point_counts (d : Digest) (nodes : List String)
    (weights : List (String × Int)) (hd : ∀ s, 12 ≤ (d s).length)
    (hw : ∀ p ∈ weights, 0 < p.2) :
    (∀ node ∈ nodes, ∃ ks, nodeKeysList d nodes weights node = some ks ∧
      (ks.length : Int) =
        3 * Int.fdiv (40 * (nodes.length : Int) * lookupWeight weights node)
          (totalWeightOf weights nodes)) ∧
    ∃ rc, generateCircle d nodes weights = some rc ∧
      rc.2.length =
        (nodes.map (fun nd => 3 * (factorOf nodes weights nd).toNat)).sum := by
  constructor
  · intro node hmem
    obtain ⟨ks, hks, hlen⟩ := nodeKeysList_length d nodes weights node hd
    refine ⟨ks, hks, ?_⟩
    have hnn := factorOf_nonneg nodes weights node hw
    rw [hlen]
    push_cast [Int.toNat_of_nonneg hnn]
    rfl
  · obtain ⟨entries, he, hlen⟩ := circleEntries_length d nodes weights hd
    refine ⟨_, generateCircle_eq_some d nodes weights entries he, ?_⟩
    show (List.insertionSort (· ≤ ·) (entries.map (fun p => p.1))).length = _
    rw [List.length_insertionSort, List.length_map, hlen]

/-- Claim C4 witness: one node of default weight 1 gets
`floor(40*1*1/1) = 40` point groups, hence 120 keys. -/
theorem c4_virtual_point_counts_witness :
    (nodeKeysList d16ex ["A"] [] "A").map List.length = some 120 := by
  obtain ⟨ks, hks, hlen⟩ :=
    (c4_virtual_point_counts d16ex ["A"] [] d16ex_length
      (by simp)).1 "A" (by simp)
  have h120 : (ks.length : Int) = 120 := by
    rw [hlen]
    decide
  have h120' : ks.length = 120 := by exact_mod_cast h120
  rw [hks]
  simp [h120']

/-- Claim C9: after every constructor and mutator, `sortedKeys` is sorted
ascending and every key in it has an entry in the `ring` map. -/
theorem c9_invariants (d : Digest) :
    (∀ nodes h, New d nodes = some h → RingInvariant h) ∧
    (∀ wl h, NewWithWeights d wl = some h → RingInvariant h) ∧
    (∀ h node h', RingInvariant h → AddNode d h node = some h' →
      RingInvariant h') ∧
    (∀ h node w h', RingInvariant h → AddWeightedNode d h node w = some h' →
      RingInvariant h') ∧
    (∀ h node h', RemoveNode d h node = some h' → RingInvariant h') := by
  have hbuild : ∀ nodes weights rc, generateCircle d nodes weights = some rc →
      ∀ ns ws, RingInvariant ⟨rc.1, rc.2, ns, ws⟩ := by
    intro nodes weights rc hgc ns ws
    obtain ⟨hsort, hmem⟩ := generateCircle_invariant d nodes weights rc hgc
    exact ⟨hsort, hmem⟩
  have haddw : ∀ h node w h', RingInvariant h →
      AddWeightedNode d h node w = some h' → RingInvariant h' := by
    intro h node w h' hinv hadd
    unfold AddWeightedNode at hadd
    by_cases hw : w ≤ 0
    · rw [if_pos hw] at hadd
      have he : h = h' := by injection hadd
      rw [← he]
      exact hinv
    · rw [if_neg hw] at hadd
      by_cases hcont : h.nodes.contains node = true
      · rw [if_pos hcont] at hadd
        have he : h = h' := by injection hadd
        rw [← he]
        exact hinv
      · rw [if_neg hcont] at hadd
        obtain ⟨rc, hgc, hmk⟩ := Option.map_eq_some'.mp hadd
        rw [← hmk]
        exact hbuild _ _ rc hgc _ _
  refine ⟨?_, ?_, ?_, haddw, ?_⟩
  · intro nodes h hnew
    obtain ⟨rc, hgc, hmk⟩ := Option.map_eq_some'.mp hnew
    rw [← hmk]
    exact hbuild _ _ rc hgc _ _
  · intro wl h hnew
    obtain ⟨rc, hgc, hmk⟩ := Option.map_eq_some'.mp hnew
    rw [← hmk]
    exact hbuild _ _ rc hgc _ _
  · intro h node h' hinv hadd
    exact haddw h node 1 h' hinv hadd
  · intro h node h' hrem
    obtain ⟨rc, hgc, hmk⟩ := Option.map_eq_some'.mp hrem
    rw [← hmk]
    exact hbuild _ _ rc hgc _ _

/-- Claim C9 witness: the concrete one-node build satisfies both
invariants. -/
theorem c9_invariants_witness :
    New d16ex ["A"] = some hAEx ∧ RingInvariant hAEx := by
  have hnew : New d16ex ["A"] = some hAEx := by decide
  exact ⟨hnew, (c9_invariants d16ex).1 ["A"] hAEx hnew⟩

/-- Claim C3: `GetNodePos` reports `found = false` exactly when the ring
map is empty; on a non-empty ring it reports `found = true` with the
position of the first `sortedKeys` entry strictly greater than the key's
hash, or the wrap-around position 0 when no entry is strictly greater. -/
theorem c3_locate (d : Digest) (h : HashRing) (k : String)
    (hd : 4 ≤ (d k).length) :
    ∃ kv pos found, GenKey d k = some kv ∧
      GetNodePos d h k = some (pos, found) ∧
      (found = false ↔ h.ring.length = 0) ∧
      (found = true → posSpec h.sortedKeys kv pos) := by
  have hgen := genKey_eq d k hd
  by_cases hr : h.ring.length = 0
  · refine ⟨hashVal ((d k).take 4), 0, false, hgen, ?_, by simp [hr], by simp⟩
    unfold GetNodePos
    rw [if_pos hr]
  · have hposeq := getNodePos_nonempty d h k _ hr hgen
    rcases findIdx_spec (fun x => decide (hashVal ((d k).take 4) < x)) 0
        h.sortedKeys with ⟨h1, h2, h3⟩ | ⟨h1, h2⟩
    · refine ⟨hashVal ((d k).take 4),
        h.sortedKeys.findIdx (fun x => decide (hashVal ((d k).take 4) < x)),
        true, hgen, ?_, by simp [hr], fun _ => ?_⟩
      · rw [hposeq, if_neg (by omega)]
      · left
        refine ⟨h1, by simpa using h2, ?_⟩
        intro j hj
        have h4 := h3 j hj
        have h5 : ¬ (hashVal ((d k).take 4) < h.sortedKeys.getD j 0) := by
          simpa using h4
        omega
    · refine ⟨hashVal ((d k).take 4), 0, true, hgen, ?_, by simp [hr],
        fun _ => ?_⟩
      · rw [hposeq, if_pos h1]
      · right
        refine ⟨rfl, ?_⟩
        intro k' hk'
        obtain ⟨j, hjlt, hjk⟩ := List.mem_iff_getElem.mp hk'
        have h4 := h2 j hjlt
        rw [List.getD_eq_getElem _ _ hjlt, hjk] at h4
        have h5 : ¬ (hashVal ((d k).take 4) < k') := by simpa using h4
        omega

/-- Claim C3 witness: on a concrete two-point ring the key hashing to 15
lands strictly before the entry 20, at position 1. -/
theorem c3_locate_witness : GetNodePos d4ex hEx2 "k" = some (1, true) := by
  obtain ⟨kv, pos, found, hgen, hpos, hiff, hspec⟩ :=
    c3_locate d4ex hEx2 "k" (d4ex_length "k")
  have hfound : found = true := by
    cases found with
    | false => exact absurd (hiff.mp rfl) (by decide)
    | true => rfl
  have hd : GetNodePos d4ex hEx2 "k" = some (1, true) := by decide
  exact hd

/-- Claim C5: on a non-empty ring `GetNodes` with size 1 returns exactly
the single node `GetNode` resolves, with a complete result; on an empty
ring both report failure. -/
theorem c5_first_replica (d : Digest) (h : HashRing) (k : String)
    (hd : 4 ≤ (d k).length) :
    (h.ring.length = 0 →
      GetNode d h k = some ("", false) ∧
      ∀ size, GetNodes d h k size = some ([], false)) ∧
    (h.ring.length ≠ 0 → h.sortedKeys ≠ [] → h.nodes ≠ [] →
      ∃ nd, GetNode d h k = some (nd, true) ∧
        GetNodes d h k 1 = some ([nd], true)) := by
  constructor
  · intro hr
    have hpos : GetNodePos d h k = some (0, false) := by
      unfold GetNodePos
      rw [if_pos hr]
    constructor
    · unfold GetNode
      rw [hpos]
      rfl
    · intro size
      exact getNodes_notFound d h k size hpos
  · intro hr hsk hn
    have hgen := genKey_eq d k hd
    obtain ⟨pos, hpos, hltf⟩ := getNodePos_exists d h k _ hr hgen
    have hlt := hltf hsk
    have hget : h.sortedKeys[pos]? = some (h.sortedKeys.getD pos 0) := by
      rw [List.getElem?_eq_getElem hlt, List.getD_eq_getElem _ _ hlt]
    refine ⟨mapGetD h.ring (h.sortedKeys.getD pos 0) "", ?_, ?_⟩
    · unfold GetNode
      rw [hpos, Option.some_bind]
      show (h.sortedKeys[pos]?).map _ = _
      rw [hget]
      rfl
    · have hlen1 : 1 ≤ h.nodes.length := by
        cases hnn : h.nodes with
        | nil => exact absurd hnn hn
        | cons a l => simp
      have hstep := getNodes_step d h k pos 1 hpos (by omega)
      rw [hstep, drop_append_take _ _ hlt, getNodesLoop_one]
      rfl

/-- Claim C5 witness: on the concrete two-point ring both paths agree on
node B. -/
theorem c5_first_replica_witness :
    GetNode d4ex hEx2 "k" = some ("B", true) ∧
    GetNodes d4ex hEx2 "k" 1 = some (["B"], true) := by
  obtain ⟨nd, hn1, hn2⟩ := (c5_first_replica d4ex hEx2 "k" (d4ex_length "k")).2
    (by decide) (by decide) (by decide)
  have hd : GetNode d4ex hEx2 "k" = some ("B", true) := by decide
  have he : nd = "B" := by
    have h1 := hn1
    rw [hd] at h1
    simp only [Option.some.injEq, Prod.mk.injEq] at h1
    exact h1.1.symm
  rw [he] at hn1 hn2
  exact ⟨hn1, hn2⟩

/-- Claim C1 (amended): the empty refusal `([], false)` is returned when
the ring is empty or `size` exceeds the *length of the `nodes` list* (which
can overcount the distinct nodes owning points); when the ring is non-empty
and `size` is within the list length, the result is never empty — fewer
distinct nodes than requested yields a non-empty partial answer with
`complete = false`, not the empty refusal. -/
theorem c1_refusal (d : Digest) (h : HashRing) (k : String) (size : Int)
    (hd : 4 ≤ (d k).length) :
    (h.ring.length = 0 ∨ (h.nodes.length : Int) < size →
      GetNodes d h k size = some ([], false)) ∧
    (h.ring.length ≠ 0 → h.sortedKeys ≠ [] → size ≤ (h.nodes.length : Int) →
      ∃ res ok, GetNodes d h k size = some (res, ok) ∧ res ≠ []) := by
  constructor
  · intro hcase
    by_cases hr : h.ring.length = 0
    · have hpos : GetNodePos d h k = some (0, false) := by
        unfold GetNodePos
        rw [if_pos hr]
      exact getNodes_notFound d h k size hpos
    · have hsz : (h.nodes.length : Int) < size := by
        rcases hcase with hr' | hsz
        · exact absurd hr' hr
        · exact hsz
      have hgen := genKey_eq d k hd
      obtain ⟨pos, hpos, _⟩ := getNodePos_exists d h k _ hr hgen
      unfold GetNodes
      rw [hpos, Option.map_some']
      show some (if size > (h.nodes.length : Int)
          then (([] : List String), false) else _) = _
      rw [if_pos hsz]
  · intro hr hsk hsize
    have hgen := genKey_eq d k hd
    obtain ⟨pos, hpos, hltf⟩ := getNodePos_exists d h k _ hr hgen
    have hlt := hltf hsk
    have hstep := getNodes_step d h k pos size hpos (by omega)
    refine ⟨getNodesLoop h.ring size
      (h.sortedKeys.drop pos ++ h.sortedKeys.take pos) [] [], _, hstep, ?_⟩
    rw [drop_append_take _ _ hlt]
    exact getNodesLoop_cons_ne_nil _ _ _ _

/-- Claim C1 counterexample: a ring built from the duplicated node list
`["A", "A"]` holds points of one distinct node only, yet
`GetNodes(_, 2)` passes the up-front check (`2 ≤ len(nodes)`), walks the
circle, and returns the non-empty partial answer `(["A"], false)` instead
of the empty refusal the claim requires for a count exceeding the distinct
node population. -/
theorem c1_counterexample :
    (New d16ex ["A", "A"]).map (fun h => h.ring) =
      some [(1, "A"), (2, "A"), (3, "A")] ∧
    (New d16ex ["A", "A"]).bind (fun h => GetNodes d16ex h "x" 2) =
      some (["A"], false) ∧
    (["A"], false) ≠ (([] : List String), false) := by
  refine ⟨by decide, by decide, by decide⟩

/-- Claim C1 witness for the amended statement: on a two-node ring a
request for 3 nodes is refused empty, `3 > len(nodes) = 2`. -/
theorem c1_refusal_witness : GetNodes d4ex hEx2 "k" 3 = some ([], false) :=
  (c1_refusal d4ex hEx2 "k" 3 (d4ex_length "k")).1 (Or.inr (by decide))

/-- Claim C10: with a non-positive count on a non-empty ring, `GetNodes`
does not refuse: it walks the whole circle from the key's position and
returns every distinct node in first-encounter order with
`complete = false`. -/
theorem c10_nonpositive_count (d : Digest) (h : HashRing) (k : String)
    (size : Int) (hd : 4 ≤ (d k).length) (hr : h.ring.length ≠ 0)
    (hsk : h.sortedKeys ≠ []) (hn : h.nodes ≠ []) (hs : size ≤ 0) :
    ∃ pos, GetNodePos d h k = some (pos, true) ∧
      GetNodes d h k size =
        some (firstSeen ((h.sortedKeys.drop pos ++ h.sortedKeys.take pos).map
          (fun kk => mapGetD h.ring kk "")), false) := by
  have hgen := genKey_eq d k hd
  obtain ⟨pos, hpos, hltf⟩ := getNodePos_exists d h k _ hr hgen
  have hlt := hltf hsk
  refine ⟨pos, hpos, ?_⟩
  have hlen1 : 1 ≤ h.nodes.length := by
    cases hnn : h.nodes with
    | nil => exact absurd hnn hn
    | cons a l => simp
  have hstep := getNodes_step d h k pos size hpos (by omega)
  rw [hstep]
  have hloop : getNodesLoop h.ring size
      (h.sortedKeys.drop pos ++ h.sortedKeys.take pos) [] [] =
      firstSeen ((h.sortedKeys.drop pos ++ h.sortedKeys.take pos).map
        (fun kk => mapGetD h.ring kk "")) := by
    rw [getNodesLoop_nonpos h.ring size hs]
    unfold firstSeen
    rw [List.foldl_map]
  rw [hloop]
  have hne : firstSeen ((h.sortedKeys.drop pos ++ h.sortedKeys.take pos).map
      (fun kk => mapGetD h.ring kk "")) ≠ [] := by
    rw [drop_append_take _ _ hlt, List.map_cons]
    exact firstSeen_cons_ne_nil _ _
  have hlen : 1 ≤ (firstSeen ((h.sortedKeys.drop pos ++
      h.sortedKeys.take pos).map (fun kk => mapGetD h.ring kk ""))).length := by
    cases hff : firstSeen ((h.sortedKeys.drop pos ++
        h.sortedKeys.take pos).map (fun kk => mapGetD h.ring kk "")) with
    | nil => exact absurd hff hne
    | cons a l => simp
  have hdec : decide (((firstSeen ((h.sortedKeys.drop pos ++
      h.sortedKeys.take pos).map
        (fun kk => mapGetD h.ring kk ""))).length : Int) = size) = false := by
    apply decide_eq_false
    omega
  rw [hdec]

/-- Claim C10 witness: count 0 on the concrete two-point ring walks the
full circle and returns both nodes in walk order with
`complete = false`. -/
theorem c10_nonpositive_count_witness :
    GetNodes d4ex hEx2 "k" 0 = some (["B", "A"], false) := by
  obtain ⟨pos, hpos, hres⟩ := c10_nonpositive_count d4ex hEx2 "k" 0
    (d4ex_length "k") (by decide) (by decide) (by decide) (by decide)
  have hp : pos = 1 := by
    have hd : GetNodePos d4ex hEx2 "k" = some (1, true) := by decide
    rw [hd] at hpos
    simp only [Option.some.injEq, Prod.mk.injEq] at hpos
    exact hpos.1.symm
  rw [hp] at hres
  rw [hres]
  decide

/-- Claim C2 is violated by the code: `NewWithWeights` ranges over the Go
weight map with no sorting, so the build order follows the unspecified map
iteration order.  The two enumerations below present the same weight map
(they are permutations of each other); `orderedKeys` agree, but on the key
collision every virtual point of this constant digest produces, the last
writer wins, so `points` maps key 1 to "B" under one enumeration and to
"A" under the other. -/
theorem c2_points_depend_on_iteration_order :
    [("A", (1 : Int)), ("B", 1)].Perm [("B", (1 : Int)), ("A", 1)] ∧
    (NewWithWeights d16ex [("A", 1), ("B", 1)]).map (fun h => h.sortedKeys) =
      (NewWithWeights d16ex [("B", 1), ("A", 1)]).map (fun h => h.sortedKeys) ∧
    (NewWithWeights d16ex [("A", 1), ("B", 1)]).map
      (fun h => mapGetD h.ring 1 "") = some "B" ∧
    (NewWithWeights d16ex [("B", 1), ("A", 1)]).map
      (fun h => mapGetD h.ring 1 "") = some "A" := by
  refine ⟨by decide, by decide, by decide, by decide⟩

end Hashring

